import Mathlib

/-!
# zkintel: commitment generation, comparison and the proof codec

A shallow embedding of `zkintel.go`.  `big.Int` values are Lean integers, byte
slices are lists of bytes, a `(bool, error)` result is a pair whose second
component is `none` for a nil error, and a run-time panic is the error branch
of `Except`.

The calls into Go's standard library (`math/big`, `fmt`, `encoding/json`) are
modelled from their documented behaviour; everything else follows the source
line by line.
-/

namespace Zkintel

/-! ## Data model -/

/-- A Go `byte`. -/
abbrev Byte := Fin 256

/-- The ways the modelled code can stop with a run-time panic. -/
inductive Panic where
  | message (msg : String)
  | nilDereference
  | divisionByZero
deriving DecidableEq, Repr

/-- The constant `generator` (zkintel.go, line 20). -/
def generator : Int := 2

/-- The constant `primeHex` (zkintel.go, line 21). -/
def primeHex : String :=
  "EEAF0AB9ADB38DD69C33F80AFA8FC5E86072618775FF3C0B9EA2314C9C256576D674DF7496EA81D3383B4813D692C6E0E0D5D8E250B98BE48E495C1D6089DAD15DC7D7B46154D6B6CE8EF4AD69B15D4982559B297BCF1885C529F566660E57EC68EDBC3C05726CC02FD4CBF4976EAA9AFD5138FE8376435B9FC61D2FC0EB06E3"

/-- The struct `Proof` (zkintel.go, lines 24-28); the three `*big.Int` fields
point to integers. -/
structure Proof where
  MMG : Int
  Prime : Int
  Modhash : Int
deriving DecidableEq, Repr

/-- The struct `JSONProof` (zkintel.go, lines 30-34). -/
structure JSONProof where
  MMG : String
  Prime : String
  Modhash : String
deriving DecidableEq, Repr

/-! ## `math/big` -/

/-- Value of one digit character as `big.Int` scanning reads it for a base of
at most 36: `0-9`, then `a-z` and `A-Z` both standing for 10..35. -/
def digitVal (ch : Char) : Option Nat :=
  if 48 ≤ ch.toNat ∧ ch.toNat ≤ 57 then some (ch.toNat - 48)
  else if 97 ≤ ch.toNat ∧ ch.toNat ≤ 122 then some (ch.toNat - 97 + 10)
  else if 65 ≤ ch.toNat ∧ ch.toNat ≤ 90 then some (ch.toNat - 65 + 10)
  else none

/-- One step of the digit scan: the character must be a digit below the base. -/
def scanStep (base : Nat) (acc : Nat) (ch : Char) : Option Nat :=
  match digitVal ch with
  | some d => if d < base then some (acc * base + d) else none
  | none => none

/-- Scan of the magnitude: at least one digit, and every character a digit of
the base (`SetString` fails unless the entire string is consumed). -/
def scanDigits (base : Nat) (cs : List Char) : Option Nat :=
  match cs with
  | [] => none
  | _ :: _ => cs.foldlM (scanStep base) 0

/-- The method `(*big.Int).SetString(s, base)` for an explicit base between 2 and 36: an
optional sign `+` or `-`, then the magnitude.  `none` is the failure result
`(nil, false)`. -/
def SetString (s : String) (base : Nat) : Option Int :=
  match s.data with
  | [] => none
  | ch :: cs =>
    if ch = '-' then (scanDigits base cs).map (fun (n : Nat) => -(n : Int))
    else if ch = '+' then (scanDigits base cs).map (fun (n : Nat) => (n : Int))
    else (scanDigits base (ch :: cs)).map (fun (n : Nat) => (n : Int))

/-- The method `(*big.Int).SetBytes(buf)`: the bytes read as a big-endian unsigned integer. -/
def SetBytes (buf : List Byte) : Nat :=
  buf.foldl (fun acc b => acc * 256 + b.val) 0

/-- The method `(*big.Int).Exp(x, y, m)` for an exponent `y ≥ 0` (the exponents of this
program come from `SetBytes`): `x ^ y mod |m|`, and `x ^ y` when `m = 0`. -/
def Exp (x : Int) (y : Nat) (m : Int) : Int :=
  if m = 0 then x ^ y else x ^ y % |m|

/-- The method `(*big.Int).Cmp`: -1, 0 or +1. -/
def Cmp (x y : Int) : Int :=
  if x < y then -1 else if x = y then 0 else 1

/-- The method `(*big.Int).Div(x, y)`: Euclidean quotient, a run-time panic when `y = 0`. -/
def Div (x y : Int) : Except Panic Int :=
  if y = 0 then .error .divisionByZero else .ok (x / y)

/-- Two's-complement wrap of an integer into the `int64` range. -/
def wrapInt64 (i : Int) : Int :=
  (i + 2 ^ 63) % 2 ^ 64 - 2 ^ 63

/-- The method `(*big.Int).Int64()`: the low 64 bits of the magnitude converted to
`int64`, negated (with wrap-around) when the number is negative. -/
def Int64 (x : Int) : Int :=
  let v := wrapInt64 ((x.natAbs % 2 ^ 64 : Nat) : Int)
  if x < 0 then wrapInt64 (-v) else v

/-- The call `fmt.Sprintf("%x", x)` for a `*big.Int`: lower-case hexadecimal digits of
the magnitude, preceded by `-` for a negative number. -/
def formatHex (x : Int) : String :=
  if x < 0 then String.mk ('-' :: Nat.toDigits 16 x.natAbs)
  else String.mk (Nat.toDigits 16 x.natAbs)

/-! ## The program -/

/-- The map built by `Proof.MarshalJSON` (zkintel.go, lines 36-44), as the
JSON object `json.Marshal` writes: string keys with string values. -/
def MarshalJSON (p : Proof) : List (String × String) :=
  [ ("modular-multiplicative-generator", formatHex p.MMG),
    ("prime", formatHex p.Prime),
    ("modular-hash", formatHex p.Modhash) ]

/-- The call `json.Unmarshal(byteArr, &jsonProof)` (zkintel.go, lines 183-184) on a JSON
object with string values: each field of `JSONProof` receives the value stored
under the name of its tag and stays empty when the object has no such key.
The model is that of objects whose keys are distinct and written exactly as
the tags, which is what `MarshalJSON` produces; on a repeated key
`encoding/json` keeps the last value, and it also accepts a key that differs
from the tag in letter case. -/
def Unmarshal (obj : List (String × String)) : JSONProof :=
  { MMG := (obj.lookup "modular-multiplicative-generator").getD "",
    Prime := (obj.lookup "prime").getD "",
    Modhash := (obj.lookup "modular-hash").getD "" }

/-- The proof deserialization of `main` (zkintel.go, lines 189-208).  An error
is the message of the `log.Fatal` that ends the process. -/
def decodeProof (jsonProof : JSONProof) : Except String Proof :=
  match SetString jsonProof.MMG 16 with
  | none => .error "unable to parse generator"
  | some mmg =>
    match SetString jsonProof.Prime 16 with
    | none => .error "unable to parse prime"
    | some p =>
      match SetString jsonProof.Modhash 16 with
      | none => .error "unable to parse modhash"
      | some m => .ok { MMG := mmg, Prime := p, Modhash := m }

/-- The function `Compare` (zkintel.go, lines 53-72).  When the constant fails to parse the
error value is dropped and `p` stays nil, so the `Cmp` of line 59 dereferences
nil. -/
def Compare (ours : List Byte) (proof : Proof) : Except Panic (Bool × Option String) :=
  match SetString primeHex 16 with
  | none => .error .nilDereference
  | some p =>
    if Cmp proof.Prime p ≠ 0 ∨ Cmp proof.MMG generator ≠ 0 then
      .ok (false, some "sender/receiver generator or prime didn't match")
    else
      let ourHash := SetBytes ours
      let ourModhash := Exp generator ourHash p
      match Div proof.Modhash ourModhash with
      | .error e => .error e
      | .ok quot =>
        if Int64 quot ≠ 1 then .ok (false, none)
        else .ok (true, none)

/-- The function `Generate` (zkintel.go, lines 74-90).  The field `Modhash` is
nil until line 87 assigns it; the placeholder 0 stands for nil. -/
def Generate (fileHash : List Byte) : Except Panic Proof :=
  match SetString primeHex 16 with
  | none => .error (.message "Unable to initialize constant prime")
  | some p =>
    let proof : Proof := { MMG := generator, Prime := p, Modhash := 0 }
    let hash := SetBytes fileHash
    .ok { proof with Modhash := Exp proof.MMG hash proof.Prime }

/-! ## `Generate` on the heap

The Go function works on `*big.Int` pointers.  The package has no variables,
only the two constants, and `Generate` calls nothing but `math/big`; the state
it can read or change is the memory holding the `big.Int` objects. -/

/-- The `big.Int` objects allocated so far, in order of allocation; an address
is a position in the list. -/
structure Heap where
  cells : List Int
deriving DecidableEq, Repr

/-- A `*big.Int`: an address, or `none` for nil. -/
abbrev Ptr := Option Nat

/-- The struct `Proof` as Go stores it (zkintel.go, lines 24-28): three
pointers. -/
structure ProofRef where
  MMG : Ptr
  Prime : Ptr
  Modhash : Ptr
deriving DecidableEq, Repr

/-- Allocation of a new `big.Int` with value `v`, as `new(big.Int)` followed by
a setter, or `big.NewInt(v)`, does; the objects already there are untouched. -/
def Heap.alloc (h : Heap) (v : Int) : Ptr × Heap :=
  (some h.cells.length, { cells := h.cells ++ [v] })

/-- The integer behind a pointer; `none` when the pointer is nil or points to
no object. -/
def Heap.load (h : Heap) (p : Ptr) : Option Int :=
  match p with
  | none => none
  | some a => h.cells.get? a

/-- The three integers behind the pointers of a proof. -/
def Heap.loadProof (h : Heap) (r : ProofRef) : Option Proof :=
  match h.load r.MMG, h.load r.Prime, h.load r.Modhash with
  | some g, some p, some m => some { MMG := g, Prime := p, Modhash := m }
  | _, _, _ => none

/-- The function `Generate` (zkintel.go, lines 74-90) with its memory made
explicit: it starts in a heap `h` and returns the proof, made of pointers,
with the heap it leaves.  Line 75 allocates the prime, line 81 the generator,
line 86 the hash, and line 87 allocates the result of `Exp`, which reads its
three operands through their pointers. -/
def GenerateOnHeap (fileHash : List Byte) (h : Heap) : Except Panic (ProofRef × Heap) :=
  match SetString primeHex 16 with
  | none => .error (.message "Unable to initialize constant prime")
  | some pv =>
    let (p, h1) := h.alloc pv
    let (g, h2) := h1.alloc generator
    let proof : ProofRef := { MMG := g, Prime := p, Modhash := none }
    let (hash, h3) := h2.alloc (SetBytes fileHash)
    match h3.load proof.MMG, h3.load hash, h3.load proof.Prime with
    | some x, some y, some m =>
      let (z, h4) := h3.alloc (Exp x y.toNat m)
      .ok ({ proof with Modhash := z }, h4)
    | _, _, _ => .error .nilDereference

/-! ## `crypto/sha256` -/

/-- The round constants of SHA-256 (FIPS 180-4, section 4.2.2). -/
def sha256K : List Nat :=
  [
    0x428a2f98, 0x71374491, 0xb5c0fbcf, 0xe9b5dba5, 0x3956c25b, 0x59f111f1,
    0x923f82a4, 0xab1c5ed5, 0xd807aa98, 0x12835b01, 0x243185be, 0x550c7dc3,
    0x72be5d74, 0x80deb1fe, 0x9bdc06a7, 0xc19bf174, 0xe49b69c1, 0xefbe4786,
    0x0fc19dc6, 0x240ca1cc, 0x2de92c6f, 0x4a7484aa, 0x5cb0a9dc, 0x76f988da,
    0x983e5152, 0xa831c66d, 0xb00327c8, 0xbf597fc7, 0xc6e00bf3, 0xd5a79147,
    0x06ca6351, 0x14292967, 0x27b70a85, 0x2e1b2138, 0x4d2c6dfc, 0x53380d13,
    0x650a7354, 0x766a0abb, 0x81c2c92e, 0x92722c85, 0xa2bfe8a1, 0xa81a664b,
    0xc24b8b70, 0xc76c51a3, 0xd192e819, 0xd6990624, 0xf40e3585, 0x106aa070,
    0x19a4c116, 0x1e376c08, 0x2748774c, 0x34b0bcb5, 0x391c0cb3, 0x4ed8aa4a,
    0x5b9cca4f, 0x682e6ff3, 0x748f82ee, 0x78a5636f, 0x84c87814, 0x8cc70208,
    0x90befffa, 0xa4506ceb, 0xbef9a3f7, 0xc67178f2 ]

/-- The initial hash value of SHA-256 (FIPS 180-4, section 5.3.3). -/
def sha256Init : List Nat :=
  [
    0x6a09e667, 0xbb67ae85, 0x3c6ef372, 0xa54ff53a,
    0x510e527f, 0x9b05688c, 0x1f83d9ab, 0x5be0cd19 ]

/-- Rotation of a 32-bit word to the right. -/
def rotr32 (x n : Nat) : Nat :=
  ((x >>> n) ||| (x <<< (32 - n))) % 2 ^ 32

def bigSigma0 (x : Nat) : Nat := rotr32 x 2 ^^^ rotr32 x 13 ^^^ rotr32 x 22

def bigSigma1 (x : Nat) : Nat := rotr32 x 6 ^^^ rotr32 x 11 ^^^ rotr32 x 25

def smallSigma0 (x : Nat) : Nat := rotr32 x 7 ^^^ rotr32 x 18 ^^^ (x >>> 3)

def smallSigma1 (x : Nat) : Nat := rotr32 x 17 ^^^ rotr32 x 19 ^^^ (x >>> 10)

def shaCh (x y z : Nat) : Nat := (x &&& y) ^^^ ((x ^^^ 0xffffffff) &&& z)

def shaMaj (x y z : Nat) : Nat := (x &&& y) ^^^ (x &&& z) ^^^ (y &&& z)

/-- Padding of a message: the byte `0x80`, zero bytes up to 56 modulo 64, and
the bit length on eight bytes, big-endian. -/
def sha256Pad (msg : List Byte) : List Nat :=
  let l := msg.length
  msg.map (fun b => b.val) ++ [0x80] ++ List.replicate ((119 - l % 64) % 64) 0
    ++ (List.range 8).map (fun i => ((8 * l) >>> (8 * (7 - i))) % 256)

/-- Big-endian 32-bit words of a byte string whose length is a multiple of 4. -/
def bytesToWords : List Nat → List Nat
  | b0 :: b1 :: b2 :: b3 :: rest =>
    (((b0 * 256 + b1) * 256 + b2) * 256 + b3) :: bytesToWords rest
  | _ => []

/-- Extension of the message schedule by `n` words; the list holds the words
computed so far, the latest first. -/
def extendSchedule : Nat → List Nat → List Nat
  | 0, w => w
  | n + 1, w =>
    extendSchedule n
      (((smallSigma1 (w.getD 1 0) + w.getD 6 0 + smallSigma0 (w.getD 14 0) + w.getD 15 0)
          % 2 ^ 32) :: w)

/-- One round of the compression function on the working variables `a..h`. -/
def sha256Round (st : List Nat) (kw : Nat × Nat) : List Nat :=
  match st with
  | [a, b, c, d, e, f, g, h] =>
    let t1 := (h + bigSigma1 e + shaCh e f g + kw.1 + kw.2) % 2 ^ 32
    let t2 := (bigSigma0 a + shaMaj a b c) % 2 ^ 32
    [(t1 + t2) % 2 ^ 32, a, b, c, (d + t1) % 2 ^ 32, e, f, g]
  | _ => st

/-- Compression of one block of sixteen words into the hash value `h`. -/
def sha256Block (h : List Nat) (block : List Nat) : List Nat :=
  let w := (extendSchedule 48 block.reverse).reverse
  List.zipWith (fun x y => (x + y) % 2 ^ 32) h ((sha256K.zip w).foldl sha256Round h)

/-- The function `sha256.Sum256`, the digest that `h.Sum(nil)` returns once the whole input
has been written to `h` (zkintel.go, lines 154-159 and 172-175). -/
def sha256 (msg : List Byte) : List Byte :=
  let ws := bytesToWords (sha256Pad msg)
  let h := (List.range (ws.length / 16)).foldl
    (fun h i => sha256Block h ((ws.drop (16 * i)).take 16)) sha256Init
  h.flatMap (fun w => [Fin.ofNat (w >>> 24), Fin.ofNat (w >>> 16), Fin.ofNat (w >>> 8), Fin.ofNat w])

/-- The bytes of an ASCII string. -/
def asciiBytes (s : String) : List Byte :=
  s.data.map (fun c => Fin.ofNat c.toNat)

/-! ## Definitions used in the statements and proofs -/

/-- Left-to-right modular exponentiation, one exponent byte at a time; it
computes `g ^ SetBytes bs % m` without building the power. -/
def expBytes (g m : Nat) (bs : List Byte) : Nat :=
  (bs.foldl (fun acc b => acc ^ 256 * g ^ b.val % m) 1) % m

/-- A hexadecimal digit: `0-9`, `a-f` or `A-F`. -/
def isHexDigit (c : Char) : Bool :=
  (48 ≤ c.toNat && c.toNat ≤ 57) || (97 ≤ c.toNat && c.toNat ≤ 102)
    || (65 ≤ c.toNat && c.toNat ≤ 70)

/-- A non-empty list of hexadecimal digits. -/
def validHexChars (cs : List Char) : Bool :=
  !cs.isEmpty && cs.all isHexDigit

/-- Valid base-16 text: a non-empty string made only of hexadecimal digits. -/
def validHex (s : String) : Bool :=
  validHexChars s.data

/-- Base-16 text with an optional leading sign `+` or `-`. -/
def validSignedHex (s : String) : Bool :=
  match s.data with
  | [] => false
  | c :: cs => if c = '-' ∨ c = '+' then validHexChars cs else validHexChars (c :: cs)

/-- The value of a hexadecimal digit: `0-9` are 0..9, `a-f` and `A-F` are
10..15. -/
def hexCharValue (c : Char) : Nat :=
  if 48 ≤ c.toNat ∧ c.toNat ≤ 57 then c.toNat - 48
  else if 97 ≤ c.toNat ∧ c.toNat ≤ 102 then c.toNat - 87
  else if 65 ≤ c.toNat ∧ c.toNat ≤ 70 then c.toNat - 55
  else 0

/-- The base-16 value of a string of hexadecimal digits, the first digit the
most significant. -/
def base16Value (cs : List Char) : Nat :=
  Nat.ofDigits 16 (cs.reverse.map hexCharValue)

/-- The integer that `primeHex` denotes in base 16. -/
def primeValue : Int :=
  0xEEAF0AB9ADB38DD69C33F80AFA8FC5E86072618775FF3C0B9EA2314C9C256576D674DF7496EA81D3383B4813D692C6E0E0D5D8E250B98BE48E495C1D6089DAD15DC7D7B46154D6B6CE8EF4AD69B15D4982559B297BCF1885C529F566660E57EC68EDBC3C05726CC02FD4CBF4976EAA9AFD5138FE8376435B9FC61D2FC0EB06E3

/-- The prime as a natural number. -/
def primeNat : Nat := primeValue.toNat

/-! ## Basic facts -/

theorem SetString_primeHex : SetString primeHex 16 = some primeValue := by
  decide!

theorem primeValue_eq : primeValue = (primeNat : Int) := by
  decide!

theorem primeNat_pos : 0 < primeNat := by
  decide!

theorem primeValue_pos : 0 < primeValue := by
  rw [primeValue_eq]
  exact_mod_cast primeNat_pos

theorem primeNat_coprime : Nat.Coprime 2 primeNat := by
  unfold Nat.Coprime
  decide!

/-- The prime is odd, so it divides no power of two: the residue of `2 ^ e`
is never zero. -/
theorem two_pow_mod_ne_zero (e : Nat) : 2 ^ e % primeNat ≠ 0 := by
  intro h
  have hdvd : primeNat ∣ 2 ^ e := Nat.dvd_of_mod_eq_zero h
  have hcop : Nat.Coprime primeNat (2 ^ e) :=
    (Nat.Coprime.pow_left e primeNat_coprime).symm
  have hone : primeNat = 1 := Nat.Coprime.eq_one_of_dvd hcop hdvd
  revert hone
  decide!

theorem Exp_generator (e : Nat) :
    Exp generator e primeValue = ((2 ^ e % primeNat : Nat) : Int) := by
  have hne : primeValue ≠ 0 := ne_of_gt primeValue_pos
  unfold Exp generator
  rw [if_neg hne, abs_of_pos primeValue_pos, primeValue_eq]
  push_cast
  rfl

theorem Exp_generator_pos (e : Nat) : 0 < Exp generator e primeValue := by
  rw [Exp_generator]
  exact_mod_cast Nat.pos_of_ne_zero (two_pow_mod_ne_zero e)

theorem Exp_generator_lt (e : Nat) : Exp generator e primeValue < primeValue := by
  rw [Exp_generator]
  conv_rhs => rw [primeValue_eq]
  exact_mod_cast Nat.mod_lt _ primeNat_pos

theorem Cmp_ne_zero_iff (x y : Int) : Cmp x y ≠ 0 ↔ x ≠ y := by
  unfold Cmp
  split_ifs with h1 h2
  · simp; omega
  · simp [h2]
  · simp [h2]

/-- Closed form of `Generate`. -/
theorem Generate_eq (s : List Byte) :
    Generate s = .ok
      { MMG := generator
        Prime := primeValue
        Modhash := Exp generator (SetBytes s) primeValue } := by
  unfold Generate
  rw [SetString_primeHex]

/-- Closed form of `Compare`: the parameter check, then the quotient test. -/
theorem Compare_eq (s : List Byte) (proof : Proof) :
    Compare s proof =
      if proof.Prime ≠ primeValue ∨ proof.MMG ≠ generator then
        .ok (false, some "sender/receiver generator or prime didn't match")
      else if Int64 (proof.Modhash / Exp generator (SetBytes s) primeValue) ≠ 1 then
        .ok (false, none)
      else .ok (true, none) := by
  have hne : Exp generator (SetBytes s) primeValue ≠ 0 :=
    ne_of_gt (Exp_generator_pos _)
  unfold Compare
  rw [SetString_primeHex]
  simp only [Cmp_ne_zero_iff, Div, if_neg hne]

theorem Int64_one : Int64 1 = 1 := by
  decide

theorem SetBytes_zeros (z : List Byte) (hz : ∀ b ∈ z, b = 0) : SetBytes z = 0 := by
  unfold SetBytes
  induction z with
  | nil => rfl
  | cons b t ih =>
    have hb : b = 0 := hz b (List.mem_cons_self b t)
    have ht : ∀ c ∈ t, c = 0 := fun c hc => hz c (List.mem_cons_of_mem b hc)
    rw [List.foldl_cons, hb]
    simpa using ih ht

theorem Compare_Generate_self (s : List Byte) :
    ∃ pr, Generate s = .ok pr ∧ Compare s pr = .ok (true, none) := by
  refine ⟨_, Generate_eq s, ?_⟩
  have hne : Exp generator (SetBytes s) primeValue ≠ 0 :=
    ne_of_gt (Exp_generator_pos _)
  rw [Compare_eq]
  simp [Int.ediv_self hne, Int64_one]

/-- Result of `Compare` on a proof that carries the constant parameters: the result is
the quotient test, with a nil error. -/
theorem Compare_matched (s : List Byte) (M : Int) :
    Compare s { MMG := generator, Prime := primeValue, Modhash := M } =
      .ok (decide (Int64 (M / ((2 ^ SetBytes s % primeNat : Nat) : Int)) = 1), none) := by
  rw [Compare_eq, Exp_generator]
  have hp : ¬ ((primeValue ≠ primeValue) ∨ (generator ≠ generator)) := by simp
  rw [if_neg hp]
  by_cases h : Int64 (M / ((2 ^ SetBytes s % primeNat : Nat) : Int)) = 1
  · rw [if_neg (not_not.mpr h), decide_eq_true h]
  · rw [if_pos h, decide_eq_false h]

theorem SetBytes_eq_ofDigits (s : List Byte) :
    SetBytes s = Nat.ofDigits 256 (s.reverse.map (fun b => b.val)) := by
  have key : ∀ l : List Byte,
      List.foldr (fun (b : Byte) (acc : Nat) => acc * 256 + b.val) 0 l
        = Nat.ofDigits 256 (l.map (fun b => b.val)) := by
    intro l
    induction l with
    | nil => rfl
    | cons b t ih =>
      rw [List.foldr_cons, List.map_cons, Nat.ofDigits_cons, ih]
      ring
  unfold SetBytes
  rw [← key s.reverse, List.foldr_reverse]

/-- The byte-wise exponentiation computes the residue of the full power. -/
theorem expBytes_eq (g m : Nat) (bs : List Byte) :
    expBytes g m bs = g ^ SetBytes bs % m := by
  have key : ∀ (l : List Byte) (acc n : Nat), acc % m = g ^ n % m →
      (l.foldl (fun a b => a ^ 256 * g ^ b.val % m) acc) % m
        = g ^ (l.foldl (fun a b => a * 256 + b.val) n) % m := by
    intro l
    induction l with
    | nil => intro acc n h; simpa using h
    | cons b t ih =>
      intro acc n h
      rw [List.foldl_cons, List.foldl_cons]
      apply ih
      rw [Nat.mod_mod, pow_add, pow_mul, Nat.mul_mod, Nat.pow_mod, h, ← Nat.pow_mod,
        ← Nat.mul_mod]
  unfold expBytes SetBytes
  exact key bs 1 0 (by simp)

/-! ## The claims -/

/-- C1. Reflexivity: for every non-empty byte sequence `s`, `Generate s`
returns a proof, and `Compare s` applied to that proof returns `true` with a
nil error. -/
theorem compare_generate_reflexive (s : List Byte) (_hs : s ≠ []) :
    ∃ pr, Generate s = .ok pr ∧ Compare s pr = .ok (true, none) :=
  Compare_Generate_self s

theorem compare_generate_reflexive_witness :
    ([0xde, 0xad, 0xbe, 0xef] : List Byte) ≠ [] ∧
      ∃ pr, Generate [0xde, 0xad, 0xbe, 0xef] = .ok pr ∧
        Compare [0xde, 0xad, 0xbe, 0xef] pr = .ok (true, none) :=
  ⟨by decide, compare_generate_reflexive [0xde, 0xad, 0xbe, 0xef] (by decide)⟩

/-- C2, evaluated at a failing input. The secrets `04 00` and `03 fc` have
different modular hashes, yet `Compare` of the second against the proof
generated from the first returns `true` with a nil error: the quotient
`(2^1024 mod P) / 2^1020` is 1. -/
theorem compare_accepts_distinct_secrets :
    ∃ p1 p2, Generate [0x04, 0x00] = .ok p1 ∧ Generate [0x03, 0xfc] = .ok p2 ∧
      p1.Modhash ≠ p2.Modhash ∧ Compare [0x03, 0xfc] p1 = .ok (true, none) := by
  refine ⟨_, _, Generate_eq _, Generate_eq _, ?_, ?_⟩
  · simp only [Exp_generator]
    decide!
  · rw [Exp_generator, Compare_matched]
    have h : decide (Int64 (((2 ^ SetBytes [0x04, 0x00] % primeNat : Nat) : Int)
        / ((2 ^ SetBytes [0x03, 0xfc] % primeNat : Nat) : Int)) = 1) = true := by
      decide!
    rw [h]

/-- C3, evaluated at a failing input. For the secret `01` the local residue is
`2`; the proof with the constant parameters and modular hash `3` lies in the
range `0 ≤ M < P` and differs from `2`, yet `Compare` returns `true`. -/
theorem compare_accepts_unequal_residue :
    (0 : Int) ≤ 3 ∧ (3 : Int) < primeValue ∧ (3 : Int) ≠ 2 ^ SetBytes [0x01] % primeValue ∧
      Compare [0x01] { MMG := 2, Prime := primeValue, Modhash := 3 } = .ok (true, none) := by
  refine ⟨by decide, by decide!, by decide!, ?_⟩
  have h := Compare_matched [0x01] 3
  have hd : decide (Int64 ((3 : Int) / ((2 ^ SetBytes [0x01] % primeNat : Nat) : Int)) = 1)
      = true := by
    decide!
  rw [hd] at h
  exact h

/-- C4. `Compare` returns an error exactly when the generator or the prime of
the proof differs from the constants; the result is then `(false, err)`.  On a
proof that carries the constant parameters it returns a boolean with a nil
error, whatever the secret and the modular hash are. -/
theorem compare_error_iff_parameter_mismatch (s : List Byte) (proof : Proof) :
    ((∃ b msg, Compare s proof = .ok (b, some msg)) ↔
        (proof.MMG ≠ 2 ∨ proof.Prime ≠ primeValue)) ∧
    ((∃ msg, Compare s proof = .ok (false, some msg)) ↔
        (proof.MMG ≠ 2 ∨ proof.Prime ≠ primeValue)) ∧
    (∀ M : Int, ∃ b, Compare s { MMG := 2, Prime := primeValue, Modhash := M } = .ok (b, none)) := by
  have hg : generator = 2 := rfl
  refine ⟨?_, ?_, ?_⟩
  · rw [Compare_eq, hg]
    constructor
    · rintro ⟨b, msg, h⟩
      by_contra hc
      have hc2 : ¬ (proof.Prime ≠ primeValue ∨ proof.MMG ≠ 2) := fun h2 => hc h2.symm
      rw [if_neg hc2] at h
      split_ifs at h <;> simp at h
    · intro hm
      rw [if_pos hm.symm]
      exact ⟨false, _, rfl⟩
  · rw [Compare_eq, hg]
    constructor
    · rintro ⟨msg, h⟩
      by_contra hc
      have hc2 : ¬ (proof.Prime ≠ primeValue ∨ proof.MMG ≠ 2) := fun h2 => hc h2.symm
      rw [if_neg hc2] at h
      split_ifs at h <;> simp at h
    · intro hm
      rw [if_pos hm.symm]
      exact ⟨_, rfl⟩
  · intro M
    exact ⟨_, Compare_matched s M⟩

/-- C5. `Generate s` is the proof with `MMG = 2`, `Prime = P`, the value that
`SetString(primeHex, 16)` parses, and `Modhash = 2 ^ e mod P`, where `e` is `s`
read as a big-endian unsigned integer (its base-256 digits are the bytes of
`s`, the last byte least significant); the exponent is not reduced. -/
theorem generate_commitment (s : List Byte) :
    SetString primeHex 16 = some primeValue ∧
    Generate s = .ok
      { MMG := 2
        Prime := primeValue
        Modhash := 2 ^ Nat.ofDigits 256 (s.reverse.map (fun b => b.val)) % primeValue } := by
  refine ⟨SetString_primeHex, ?_⟩
  rw [Generate_eq, ← SetBytes_eq_ofDigits]
  have hne : primeValue ≠ 0 := ne_of_gt primeValue_pos
  simp only [Exp, generator, if_neg hne, abs_of_pos primeValue_pos]

/-- C9. Zero exponent: for every byte sequence `z` of length at least 1 made
only of zero bytes, `Generate z` has modular hash 1 and `Compare z` applied to
it returns `true` with a nil error. -/
theorem zero_exponent (z : List Byte) (_hlen : 1 ≤ z.length) (hz : ∀ b ∈ z, b = 0) :
    ∃ pr, Generate z = .ok pr ∧ pr.Modhash = 1 ∧ Compare z pr = .ok (true, none) := by
  obtain ⟨pr, hgen, hcmp⟩ := Compare_Generate_self z
  refine ⟨pr, hgen, ?_, hcmp⟩
  rw [Generate_eq] at hgen
  cases hgen
  show Exp generator (SetBytes z) primeValue = 1
  rw [SetBytes_zeros z hz, Exp_generator]
  decide!

theorem zero_exponent_witness :
    1 ≤ ([0, 0, 0] : List Byte).length ∧ (∀ b ∈ ([0, 0, 0] : List Byte), b = 0) ∧
      ∃ pr, Generate [0, 0, 0] = .ok pr ∧ pr.Modhash = 1 ∧
        Compare [0, 0, 0] pr = .ok (true, none) :=
  ⟨by decide, by simp, zero_exponent [0, 0, 0] (by decide) (by simp)⟩

/-- C10. The proof that `Generate s` returns satisfies `0 ≤ Modhash < Prime`,
its `MMG` is the constant generator and its `Prime` the constant prime. -/
theorem generate_invariant (s : List Byte) :
    ∃ pr, Generate s = .ok pr ∧ 0 ≤ pr.Modhash ∧ pr.Modhash < pr.Prime ∧
      pr.MMG = generator ∧ pr.Prime = primeValue ∧
      SetString primeHex 16 = some pr.Prime :=
  ⟨_, Generate_eq s, le_of_lt (Exp_generator_pos _), Exp_generator_lt _, rfl, rfl,
    SetString_primeHex⟩

theorem sha256_alpha : sha256 (asciiBytes "alpha") =
    [0x8e, 0xd3, 0xf6, 0xad, 0x68, 0x5b, 0x95, 0x9e, 0xad, 0x70, 0x22, 0x51, 0x8e, 0x1a, 0xf7, 0x6c,
     0xd8, 0x16, 0xf8, 0xe8, 0xec, 0x7c, 0xcd, 0xda, 0x1e, 0xd4, 0x01, 0x8e, 0x8f, 0x22, 0x23, 0xf8] := by
  decide!

theorem sha256_beta : sha256 (asciiBytes "beta") =
    [0xf4, 0x4e, 0x64, 0xe7, 0x5f, 0x39, 0x48, 0xe9, 0xf7, 0x3f, 0x8d, 0xfa, 0x94, 0x72, 0x1c, 0x4c,
     0xe8, 0xcb, 0xb4, 0xf2, 0x65, 0xc4, 0x79, 0x0c, 0x70, 0x2b, 0x2d, 0x41, 0xcf, 0xbf, 0x27, 0x53] := by
  decide!

/-- C8. Discrimination on the concrete inputs of the specification: with the
SHA-256 digests of the ASCII strings "alpha" and "beta", `Compare` of the
second digest against the proof generated from the first returns `false` with
a nil error. -/
theorem discrimination_alpha_beta :
    ∃ p1, Generate (sha256 (asciiBytes "alpha")) = .ok p1 ∧
      Compare (sha256 (asciiBytes "beta")) p1 = .ok (false, none) := by
  refine ⟨_, Generate_eq _, ?_⟩
  rw [Exp_generator, Compare_matched, ← expBytes_eq, ← expBytes_eq]
  have h : decide (Int64 (((expBytes 2 primeNat (sha256 (asciiBytes "alpha")) : Nat) : Int)
      / ((expBytes 2 primeNat (sha256 (asciiBytes "beta")) : Nat) : Int)) = 1) = false := by
    decide!
  rw [h]

/-! ### The codec -/

theorem digitVal_digitChar (d : Nat) (hd : d < 16) :
    digitVal (Nat.digitChar d) = some d := by
  interval_cases d <;> decide

theorem scanStep_digitChar (a d : Nat) (hd : d < 16) :
    scanStep 16 a (Nat.digitChar d) = some (a * 16 + d) := by
  unfold scanStep
  rw [digitVal_digitChar d hd]
  simp [hd]

/-- Scanning the digits that `Nat.toDigitsCore` puts in front of `ds` brings
the accumulator from 0 to `n`. -/
theorem scan_toDigitsCore (fuel : Nat) :
    ∀ (n : Nat) (ds : List Char), n < fuel →
      List.foldlM (scanStep 16) 0 (Nat.toDigitsCore 16 fuel n ds)
        = List.foldlM (scanStep 16) n ds := by
  induction fuel with
  | zero => intro n ds h; omega
  | succ fuel ih =>
    intro n ds h
    have hmod : n % 16 < 16 := Nat.mod_lt _ (by decide)
    unfold Nat.toDigitsCore
    by_cases h0 : n / 16 = 0
    · have hn : n % 16 = n := Nat.mod_eq_of_lt (by omega)
      simp only [h0, if_true]
      rw [List.foldlM_cons, scanStep_digitChar 0 _ hmod, hn]
      simp
    · simp only [h0, if_false]
      rw [ih (n / 16) _ (by omega), List.foldlM_cons, scanStep_digitChar _ _ hmod]
      have hn : n / 16 * 16 + n % 16 = n := by omega
      simp [hn]

theorem toDigitsCore_ne_nil (fuel : Nat) :
    ∀ (n : Nat) (ds : List Char), (0 < fuel ∨ ds ≠ []) → Nat.toDigitsCore 16 fuel n ds ≠ [] := by
  induction fuel with
  | zero =>
    intro n ds h
    unfold Nat.toDigitsCore
    rcases h with h | h
    · omega
    · exact h
  | succ fuel ih =>
    intro n ds _
    unfold Nat.toDigitsCore
    by_cases h0 : n / 16 = 0
    · simp [h0]
    · simp only [h0, if_false]
      exact ih _ _ (Or.inr (by simp))

theorem scanDigits_toDigits (n : Nat) : scanDigits 16 (Nat.toDigits 16 n) = some n := by
  have hne : Nat.toDigits 16 n ≠ [] := toDigitsCore_ne_nil (n + 1) n [] (Or.inl (by omega))
  have hscan : List.foldlM (scanStep 16) 0 (Nat.toDigits 16 n) = some n := by
    unfold Nat.toDigits
    rw [scan_toDigitsCore (n + 1) n [] (by omega)]
    rfl
  unfold scanDigits
  split
  · contradiction
  · exact hscan

/-- A successful scan starts with a digit, which is not a sign. -/
theorem scanDigits_head (ch : Char) (cs : List Char) (n : Nat)
    (h : scanDigits 16 (ch :: cs) = some n) : ch ≠ '-' ∧ ch ≠ '+' := by
  unfold scanDigits at h
  rw [List.foldlM_cons] at h
  have hstep : scanStep 16 0 ch ≠ none := by
    intro hc
    rw [hc] at h
    simp at h
  constructor
  · intro hch
    apply hstep
    rw [hch]
    decide
  · intro hch
    apply hstep
    rw [hch]
    decide

/-- Parsing the hexadecimal text of an integer gives the integer back. -/
theorem SetString_formatHex (x : Int) : SetString (formatHex x) 16 = some x := by
  have hscan := scanDigits_toDigits x.natAbs
  unfold formatHex
  by_cases hx : x < 0
  · rw [if_pos hx]
    unfold SetString
    simp only [if_true, hscan, Option.map_some']
    rw [Int.ofNat_natAbs_of_nonpos (le_of_lt hx), neg_neg]
  · rw [if_neg hx]
    unfold SetString
    cases hL : Nat.toDigits 16 x.natAbs with
    | nil => rw [hL] at hscan; simp [scanDigits] at hscan
    | cons ch cs =>
      rw [hL] at hscan
      obtain ⟨h1, h2⟩ := scanDigits_head ch cs _ hscan
      simp only [if_neg h1, if_neg h2, hscan, Option.map_some']
      rw [Int.natAbs_of_nonneg (not_lt.mp hx)]

theorem Unmarshal_MarshalJSON (p : Proof) :
    Unmarshal (MarshalJSON p) =
      { MMG := formatHex p.MMG
        Prime := formatHex p.Prime
        Modhash := formatHex p.Modhash } := by
  simp [Unmarshal, MarshalJSON, List.lookup]

/-- C6. Round trip: decoding the record that `Proof.MarshalJSON` writes
succeeds and gives back the proof, field by field.  The record has three
fields, and the decoder finds under each of its three field names the text
that the encoder wrote for the same field. -/
theorem decode_encode_roundtrip (p : Proof) :
    decodeProof (Unmarshal (MarshalJSON p)) = .ok p ∧
    (MarshalJSON p).map Prod.fst
      = ["modular-multiplicative-generator", "prime", "modular-hash"] ∧
    Unmarshal (MarshalJSON p) =
      { MMG := formatHex p.MMG
        Prime := formatHex p.Prime
        Modhash := formatHex p.Modhash } := by
  refine ⟨?_, rfl, Unmarshal_MarshalJSON p⟩
  rw [Unmarshal_MarshalJSON]
  unfold decodeProof
  simp only [SetString_formatHex]

theorem scanStep_isHexDigit (a a' : Nat) (c : Char) (h : scanStep 16 a c = some a') :
    isHexDigit c = true := by
  unfold scanStep at h
  cases hd : digitVal c with
  | none => rw [hd] at h; simp at h
  | some d =>
    rw [hd] at h
    have hlt : d < 16 := by
      by_contra hc
      simp [hc] at h
    unfold digitVal at hd
    unfold isHexDigit
    split_ifs at hd with h1 h2 h3
    · simp [h1.1, h1.2]
    · have hv : c.toNat - 97 + 10 = d := Option.some.inj hd
      have h4 : c.toNat ≤ 102 := by omega
      simp [h2.1, h4]
    · have hv : c.toNat - 65 + 10 = d := Option.some.inj hd
      have h4 : c.toNat ≤ 70 := by omega
      simp [h3.1, h4]

theorem foldlM_scanStep_all (cs : List Char) :
    ∀ (a n : Nat), List.foldlM (scanStep 16) a cs = some n → cs.all isHexDigit = true := by
  induction cs with
  | nil => intro a n _; rfl
  | cons c t ih =>
    intro a n h
    rw [List.foldlM_cons] at h
    cases hs : scanStep 16 a c with
    | none => rw [hs] at h; simp at h
    | some a' =>
      rw [hs] at h
      rw [List.all_cons, scanStep_isHexDigit a a' c hs, ih a' n h]
      rfl

theorem scanDigits_validHexChars (cs : List Char) (n : Nat) (h : scanDigits 16 cs = some n) :
    validHexChars cs = true := by
  unfold scanDigits at h
  cases cs with
  | nil => simp at h
  | cons c t =>
    unfold validHexChars
    rw [foldlM_scanStep_all (c :: t) 0 n h]
    rfl

/-- What `SetString(s, 16)` accepts is base-16 text with an optional sign. -/
theorem SetString_validSignedHex (s : String) (v : Int) (h : SetString s 16 = some v) :
    validSignedHex s = true := by
  unfold SetString at h
  unfold validSignedHex
  cases hL : s.data with
  | nil => rw [hL] at h; simp at h
  | cons ch cs =>
    rw [hL] at h
    simp only at h ⊢
    by_cases h1 : ch = '-'
    · rw [if_pos h1] at h
      rw [if_pos (Or.inl h1)]
      cases hsc : scanDigits 16 cs with
      | none => rw [hsc] at h; simp at h
      | some n => exact scanDigits_validHexChars cs n hsc
    · rw [if_neg h1] at h
      by_cases h2 : ch = '+'
      · rw [if_pos h2] at h
        rw [if_pos (Or.inr h2)]
        cases hsc : scanDigits 16 cs with
        | none => rw [hsc] at h; simp at h
        | some n => exact scanDigits_validHexChars cs n hsc
      · rw [if_neg h2] at h
        rw [if_neg (by tauto)]
        cases hsc : scanDigits 16 (ch :: cs) with
        | none => rw [hsc] at h; simp at h
        | some n => exact scanDigits_validHexChars (ch :: cs) n hsc

/-- C7 as stated fails: the generator field `+2` and the modular hash field
`-1` are not valid base-16 text, yet the record decodes to a proof. -/
theorem decode_accepts_signed_fields :
    validHex "+2" = false ∧ validHex "-1" = false ∧
      decodeProof { MMG := "+2", Prime := primeHex, Modhash := "-1" }
        = .ok { MMG := 2, Prime := primeValue, Modhash := -1 } := by
  refine ⟨by decide, by decide, ?_⟩
  have h1 : SetString "+2" 16 = some 2 := by decide
  have h2 : SetString "-1" 16 = some (-1) := by decide
  unfold decodeProof
  simp only [h1, h2, SetString_primeHex]

/-- C7, amended. When at least one of the three fields is not base-16 text
with an optional leading sign, decoding fails: the result is the message of
the fatal error and no proof. -/
theorem decode_rejects_malformed (j : JSONProof)
    (h : validSignedHex j.MMG = false ∨ validSignedHex j.Prime = false
      ∨ validSignedHex j.Modhash = false) :
    ∃ msg, decodeProof j = .error msg := by
  unfold decodeProof
  cases h1 : SetString j.MMG 16 with
  | none => exact ⟨_, rfl⟩
  | some mmg =>
    cases h2 : SetString j.Prime 16 with
    | none => exact ⟨_, rfl⟩
    | some p =>
      cases h3 : SetString j.Modhash 16 with
      | none => exact ⟨_, rfl⟩
      | some m =>
        exfalso
        have v1 := SetString_validSignedHex _ _ h1
        have v2 := SetString_validSignedHex _ _ h2
        have v3 := SetString_validSignedHex _ _ h3
        rcases h with h | h | h
        · rw [v1] at h; exact Bool.noConfusion h
        · rw [v2] at h; exact Bool.noConfusion h
        · rw [v3] at h; exact Bool.noConfusion h

theorem decode_rejects_malformed_witness :
    (validSignedHex "2" = false ∨ validSignedHex "0x17" = false
        ∨ validSignedHex "1f" = false) ∧
      ∃ msg, decodeProof { MMG := "2", Prime := "0x17", Modhash := "1f" } = .error msg :=
  ⟨by decide, decode_rejects_malformed { MMG := "2", Prime := "0x17", Modhash := "1f" }
    (by decide)⟩

/-! ### Group size, determinism and the panic branches -/

/-- C12 as stated fails: the prime is not a 3072-bit number. -/
theorem prime_not_3072_bits :
    SetString primeHex 16 = some primeValue ∧
      ¬ ((2 : Int) ^ 3071 ≤ primeValue ∧ primeValue < 2 ^ 3072) := by
  refine ⟨SetString_primeHex, ?_⟩
  rintro ⟨h, -⟩
  rw [primeValue_eq] at h
  have hn : (2 : Nat) ^ 3071 ≤ primeNat := by exact_mod_cast h
  revert hn
  decide!

/-- C12, amended. The fixed generator is 2 and the fixed prime, the value that
`SetString(primeHex, 16)` parses, is a 1024-bit modulus:
`2^1023 ≤ P < 2^1024`. -/
theorem group_size :
    generator = 2 ∧ SetString primeHex 16 = some primeValue ∧
      (2 : Int) ^ 1023 ≤ primeValue ∧ primeValue < 2 ^ 1024 := by
  have h1 : (2 : Nat) ^ 1023 ≤ primeNat := by decide!
  have h2 : primeNat < (2 : Nat) ^ 1024 := by decide!
  refine ⟨rfl, SetString_primeHex, ?_, ?_⟩
  · rw [primeValue_eq]
    exact_mod_cast h1
  · rw [primeValue_eq]
    exact_mod_cast h2

theorem get?_append_add (l xs : List Int) (i : Nat) :
    (l ++ xs).get? (l.length + i) = xs.get? i := by
  rw [List.get?_eq_getElem?, List.get?_eq_getElem?,
    List.getElem?_append_right (Nat.le_add_right _ _), Nat.add_sub_cancel_left]

theorem get?_append_length (l xs : List Int) :
    (l ++ xs).get? l.length = xs.get? 0 :=
  get?_append_add l xs 0

/-- Closed form of `GenerateOnHeap`: four objects are appended to the heap,
the prime, the generator, the hash and the modular hash, and the proof points
to the second, the first and the fourth of them. -/
theorem GenerateOnHeap_eq (s : List Byte) (h : Heap) :
    GenerateOnHeap s h = .ok
      ({ MMG := some (h.cells.length + 1)
         Prime := some h.cells.length
         Modhash := some (h.cells.length + 3) },
       { cells := h.cells ++ [primeValue, generator, (SetBytes s : Int),
           Exp generator (SetBytes s) primeValue] }) := by
  unfold GenerateOnHeap
  rw [SetString_primeHex]
  simp only [Heap.alloc, Heap.load, List.append_assoc, List.length_append, List.length_cons,
    List.length_nil, List.singleton_append, List.cons_append, List.nil_append,
    get?_append_add, get?_append_length, List.get?_cons_succ, List.get?_cons_zero,
    Int.toNat_ofNat, Nat.zero_add, Nat.reduceAdd]

/-- The proof that `GenerateOnHeap` returns points to the three integers of
the proof that `Generate` returns. -/
theorem loadProof_generated (s : List Byte) (l ys : List Int) :
    Heap.loadProof
      { cells := l ++ ([primeValue, generator, (SetBytes s : Int),
          Exp generator (SetBytes s) primeValue] ++ ys) }
      { MMG := some (l.length + 1)
        Prime := some l.length
        Modhash := some (l.length + 3) }
      = some { MMG := generator
               Prime := primeValue
               Modhash := Exp generator (SetBytes s) primeValue } := by
  simp only [Heap.loadProof, Heap.load, get?_append_add, get?_append_length, List.cons_append,
    List.get?_cons_succ, List.get?_cons_zero]

/-- C13. Determinism: in whatever memory state a call of `Generate` on `s`
starts, it returns a proof, and the proofs of two calls (the second may start
in the state the first has left) have the same generator, the same prime and
the same modular hash: the three integers behind the pointers are those of
`{2, P, 2 ^ e mod P}`, which depend on `s` alone.  The call leaves the objects
that were there before as they were. -/
theorem generate_deterministic (s : List Byte) (h1 h2 : Heap) :
    ∃ r1 k1 r2 k2 pr,
      GenerateOnHeap s h1 = .ok (r1, k1) ∧ GenerateOnHeap s h2 = .ok (r2, k2) ∧
      k1.loadProof r1 = some pr ∧ k2.loadProof r2 = some pr ∧
      Generate s = .ok pr ∧
      (∃ r3 k3, GenerateOnHeap s k1 = .ok (r3, k3) ∧ k3.loadProof r3 = some pr ∧
        k3.loadProof r1 = some pr) ∧
      (∀ a, a < h1.cells.length → k1.load (some a) = h1.load (some a)) := by
  have hload : ∀ h : Heap,
      Heap.loadProof
        { cells := h.cells ++ [primeValue, generator, (SetBytes s : Int),
            Exp generator (SetBytes s) primeValue] }
        { MMG := some (h.cells.length + 1)
          Prime := some h.cells.length
          Modhash := some (h.cells.length + 3) }
        = some { MMG := generator
                 Prime := primeValue
                 Modhash := Exp generator (SetBytes s) primeValue } := by
    intro h
    have := loadProof_generated s h.cells []
    rwa [List.append_nil] at this
  refine ⟨_, _, _, _, _, GenerateOnHeap_eq s h1, GenerateOnHeap_eq s h2, hload h1, hload h2,
    Generate_eq s, ⟨_, _, GenerateOnHeap_eq s _, hload _, ?_⟩, ?_⟩
  · have := loadProof_generated s h1.cells [primeValue, generator, (SetBytes s : Int),
      Exp generator (SetBytes s) primeValue]
    rwa [← List.append_assoc] at this
  · intro a ha
    show (h1.cells ++ _).get? a = h1.cells.get? a
    rw [List.get?_eq_getElem?, List.get?_eq_getElem?, List.getElem?_append_left ha]

theorem Compare_ne_error (s : List Byte) (proof : Proof) (e : Panic) :
    Compare s proof ≠ .error e := by
  rw [Compare_eq]
  split_ifs <;> simp

/-- C15. `Compare` never divides by zero: the prime is odd and greater than 2,
the locally recomputed residue `2 ^ e mod P` is at least 1 for every byte
sequence, so the `Div` of line 66 returns the quotient for every dividend and
`Compare` ends with no panic on every proof. -/
theorem compare_never_divides_by_zero (s : List Byte) :
    primeValue % 2 = 1 ∧ 2 < primeValue ∧
      1 ≤ Exp generator (SetBytes s) primeValue ∧
      (∀ M : Int, Div M (Exp generator (SetBytes s) primeValue)
        = .ok (M / Exp generator (SetBytes s) primeValue)) ∧
      (∀ (proof : Proof) (e : Panic), Compare s proof ≠ .error e) := by
  have hpos := Exp_generator_pos (SetBytes s)
  refine ⟨by decide!, by decide!, hpos, ?_, fun proof e => Compare_ne_error s proof e⟩
  intro M
  unfold Div
  rw [if_neg (ne_of_gt hpos)]

/-- C16. The constant prime always initialises: `primeHex` is a non-empty
string of hexadecimal digits and `SetString(primeHex, 16)` succeeds with a
positive integer; so `Generate` returns a proof for every byte sequence and
never reaches its panic, and `Compare` never runs with a nil prime. -/
theorem prime_always_initialises :
    validHex primeHex = true ∧
      (∃ p : Int, SetString primeHex 16 = some p ∧ 0 < p) ∧
      (∀ s : List Byte, ∃ pr, Generate s = .ok pr) ∧
      (∀ (s : List Byte) (e : Panic), Generate s ≠ .error e) ∧
      (∀ (s : List Byte) (proof : Proof), Compare s proof ≠ .error .nilDereference) := by
  refine ⟨by decide!, ⟨_, SetString_primeHex, primeValue_pos⟩, fun s => ⟨_, Generate_eq s⟩,
    ?_, fun s proof => Compare_ne_error s proof _⟩
  intro s e
  rw [Generate_eq]
  simp

/-! ### Leading zero bytes -/

theorem SetBytes_leading_zeros (k : Nat) (s : List Byte) :
    SetBytes (List.replicate k 0 ++ s) = SetBytes s := by
  have hz : SetBytes (List.replicate k (0 : Byte)) = 0 :=
    SetBytes_zeros _ (fun b hb => List.eq_of_mem_replicate hb)
  unfold SetBytes at hz ⊢
  rw [List.foldl_append, hz]

/-- C17. Leading zero bytes of the secret are ignored: with `k` zero bytes in
front of `s`, `Generate` returns the same result as on `s` and `Compare`
returns the same result as on `s` for every proof; in particular an all-zero
sequence and the empty sequence give the same results. -/
theorem leading_zero_bytes_ignored (k : Nat) (s : List Byte) :
    Generate (List.replicate k 0 ++ s) = Generate s ∧
      (∀ proof : Proof, Compare (List.replicate k 0 ++ s) proof = Compare s proof) ∧
      Generate (List.replicate k 0) = Generate [] ∧
      (∀ proof : Proof, Compare (List.replicate k 0) proof = Compare [] proof) := by
  have h0 : SetBytes (List.replicate k (0 : Byte)) = SetBytes [] := by
    have := SetBytes_leading_zeros k []
    rwa [List.append_nil] at this
  refine ⟨?_, ?_, ?_, ?_⟩
  · rw [Generate_eq, Generate_eq, SetBytes_leading_zeros]
  · intro proof
    rw [Compare_eq, Compare_eq, SetBytes_leading_zeros]
  · rw [Generate_eq, Generate_eq, h0]
  · intro proof
    rw [Compare_eq, Compare_eq, h0]

/-! ### The quotient test -/

theorem residue_cast (e : Nat) :
    ((2 ^ e % primeNat : Nat) : Int) = 2 ^ e % primeValue := by
  rw [primeValue_eq]
  push_cast
  rfl

theorem residue_pos (e : Nat) : (0 : Int) < 2 ^ e % primeValue := by
  rw [← residue_cast]
  exact_mod_cast Nat.pos_of_ne_zero (two_pow_mod_ne_zero e)

/-- On a non-negative number `Int64()` is 1 exactly when the low 64 bits are. -/
theorem Int64_eq_one_iff (q : Int) (hq : 0 ≤ q) : Int64 q = 1 ↔ q % 2 ^ 64 = 1 := by
  obtain ⟨n, rfl⟩ := Int.eq_ofNat_of_zero_le hq
  have hneg : ¬ ((n : Int) < 0) := by omega
  unfold Int64 wrapInt64
  simp only [Int.natAbs_ofNat, if_neg hneg]
  push_cast
  norm_num
  omega

theorem Compare_true_iff (s : List Byte) (M : Int) (h0 : 0 ≤ M) :
    Compare s { MMG := 2, Prime := primeValue, Modhash := M } = .ok (true, none)
      ↔ (M / (2 ^ SetBytes s % primeValue)) % 2 ^ 64 = 1 := by
  have hq : 0 ≤ M / (2 ^ SetBytes s % primeValue) :=
    Int.ediv_nonneg h0 (le_of_lt (residue_pos _))
  have hc := Compare_matched s M
  rw [residue_cast] at hc
  rw [← Int64_eq_one_iff _ hq]
  constructor
  · intro h
    rw [show ({ MMG := 2, Prime := primeValue, Modhash := M } : Proof)
      = { MMG := generator, Prime := primeValue, Modhash := M } from rfl, hc] at h
    simpa using h
  · intro h
    rw [show ({ MMG := 2, Prime := primeValue, Modhash := M } : Proof)
      = { MMG := generator, Prime := primeValue, Modhash := M } from rfl, hc,
      decide_eq_true h]

theorem quotient_eq_one_iff (M m : Int) (hm : 0 < m) : M / m = 1 ↔ m ≤ M ∧ M < 2 * m := by
  constructor
  · intro h
    have h1 : (1 : Int) ≤ M / m := by omega
    have h2 : M / m < 2 := by omega
    rw [Int.le_ediv_iff_mul_le hm] at h1
    rw [Int.ediv_lt_iff_lt_mul hm] at h2
    constructor <;> linarith
  · rintro ⟨h1, h2⟩
    have h3 : (1 : Int) ≤ M / m := by
      rw [Int.le_ediv_iff_mul_le hm]
      linarith
    have h4 : M / m < 2 := by
      rw [Int.ediv_lt_iff_lt_mul hm]
      linarith
    omega

/-- C14, evaluated at a failing input. For the empty secret the local residue
is 1; the modular hash `2^64 + 1` is in range and not below `2 * 1`, so the
quotient is `2^64 + 1` and not 1, yet `Compare` returns `true`: the test of
line 67 reads the quotient through `Int64()`, which keeps its low 64 bits. -/
theorem quotient_check_not_range :
    (0 : Int) ≤ 2 ^ 64 + 1 ∧ (2 : Int) ^ 64 + 1 < primeValue ∧
      Compare [] { MMG := 2, Prime := primeValue, Modhash := 2 ^ 64 + 1 } = .ok (true, none) ∧
      ¬ ((2 : Int) ^ 64 + 1 < 2 * (2 ^ SetBytes [] % primeValue)) := by
  refine ⟨by decide, by decide!, ?_, by decide!⟩
  rw [Compare_true_iff [] _ (by decide)]
  decide!

/-- What lines 66-67 compute on a proof with generator 2, prime `P` and modular
hash `0 ≤ M < P`, with `m' = 2 ^ e mod P`: `Compare` returns `true` exactly
when the low 64 bits of the quotient `M / m'` are 1, and `false` with a nil
error otherwise.  It returns `true` whenever `m' ≤ M < 2 * m'`, and when
`M < 2^64 * m'` it returns `true` only then. -/
theorem compare_quotient_check (s : List Byte) (M : Int) (h0 : 0 ≤ M) (_hP : M < primeValue) :
    (Compare s { MMG := 2, Prime := primeValue, Modhash := M } = .ok (true, none)
        ↔ (M / (2 ^ SetBytes s % primeValue)) % 2 ^ 64 = 1) ∧
    (Compare s { MMG := 2, Prime := primeValue, Modhash := M } = .ok (false, none)
        ↔ (M / (2 ^ SetBytes s % primeValue)) % 2 ^ 64 ≠ 1) ∧
    ((2 ^ SetBytes s % primeValue ≤ M ∧ M < 2 * (2 ^ SetBytes s % primeValue)) →
        Compare s { MMG := 2, Prime := primeValue, Modhash := M } = .ok (true, none)) ∧
    (M < 2 ^ 64 * (2 ^ SetBytes s % primeValue) →
        (Compare s { MMG := 2, Prime := primeValue, Modhash := M } = .ok (true, none)
          ↔ (2 ^ SetBytes s % primeValue ≤ M ∧ M < 2 * (2 ^ SetBytes s % primeValue)))) := by
  have hm := residue_pos (SetBytes s)
  have hq : 0 ≤ M / (2 ^ SetBytes s % primeValue) := Int.ediv_nonneg h0 (le_of_lt hm)
  have htrue := Compare_true_iff s M h0
  refine ⟨htrue, ?_, ?_, ?_⟩
  · have hc := Compare_matched s M
    rw [residue_cast] at hc
    rw [Ne, ← Int64_eq_one_iff _ hq, show ({ MMG := 2, Prime := primeValue, Modhash := M } : Proof)
      = { MMG := generator, Prime := primeValue, Modhash := M } from rfl, hc]
    by_cases hd : Int64 (M / (2 ^ SetBytes s % primeValue)) = 1
    · rw [decide_eq_true hd]
      simp [hd]
    · rw [decide_eq_false hd]
      simp [hd]
  · intro hr
    rw [htrue, (quotient_eq_one_iff M _ hm).mpr hr]
    decide
  · intro hlt
    have hq2 : M / (2 ^ SetBytes s % primeValue) < 2 ^ 64 := by
      rw [Int.ediv_lt_iff_lt_mul hm]
      exact hlt
    rw [htrue, Int.emod_eq_of_lt hq hq2]
    exact quotient_eq_one_iff M _ hm

theorem compare_quotient_check_witness :
    (0 : Int) ≤ 5 ∧ (5 : Int) < primeValue ∧
      ((2 : Int) ^ SetBytes [0x02] % primeValue ≤ 5
        ∧ (5 : Int) < 2 * (2 ^ SetBytes [0x02] % primeValue)) ∧
      Compare [0x02] { MMG := 2, Prime := primeValue, Modhash := 5 } = .ok (true, none) :=
  ⟨by decide, by decide!, by decide!,
    (compare_quotient_check [0x02] 5 (by decide) (by decide!)).2.2.1 (by decide!)⟩

/-! ### Exactness of the parse -/

/-- The hexadecimal digits, one by one. -/
theorem isHexDigit_cases (c : Char) (h : isHexDigit c = true) :
    c ∈ ['0', '1', '2', '3', '4', '5', '6', '7', '8', '9', 'a', 'b', 'c', 'd', 'e', 'f',
      'A', 'B', 'C', 'D', 'E', 'F'] := by
  have hc := Char.ofNat_toNat c
  unfold isHexDigit at h
  simp only [Bool.or_eq_true, Bool.and_eq_true, decide_eq_true_eq] at h
  generalize c.toNat = n at h hc
  subst hc
  rcases h with (⟨h1, h2⟩ | ⟨h1, h2⟩) | ⟨h1, h2⟩
  · interval_cases n <;> decide
  · interval_cases n <;> decide
  · interval_cases n <;> decide

theorem digitVal_hex (c : Char) (h : isHexDigit c = true) :
    digitVal c = some (hexCharValue c) ∧ hexCharValue c < 16 := by
  have hmem := isHexDigit_cases c h
  clear h
  revert c
  decide

theorem hex_case_insensitive (c : Char) (h : isHexDigit c = true) :
    isHexDigit c.toUpper = true ∧ hexCharValue c.toUpper = hexCharValue c ∧
      isHexDigit c.toLower = true ∧ hexCharValue c.toLower = hexCharValue c := by
  have hmem := isHexDigit_cases c h
  clear h
  revert c
  decide

theorem foldlM_scanStep_hex (cs : List Char) :
    ∀ a : Nat, cs.all isHexDigit = true →
      List.foldlM (scanStep 16) a cs
        = some (cs.foldl (fun acc c => acc * 16 + hexCharValue c) a) := by
  induction cs with
  | nil => intro a _; rfl
  | cons c t ih =>
    intro a h
    rw [List.all_cons, Bool.and_eq_true] at h
    obtain ⟨hd, hlt⟩ := digitVal_hex c h.1
    rw [List.foldlM_cons, List.foldl_cons]
    unfold scanStep
    rw [hd]
    simp only [if_pos hlt]
    exact ih _ h.2

theorem foldl_hex_eq_base16Value (cs : List Char) :
    cs.foldl (fun acc c => acc * 16 + hexCharValue c) 0 = base16Value cs := by
  have key : ∀ l : List Char,
      List.foldr (fun (c : Char) (acc : Nat) => acc * 16 + hexCharValue c) 0 l
        = Nat.ofDigits 16 (l.map hexCharValue) := by
    intro l
    induction l with
    | nil => rfl
    | cons c t ih =>
      rw [List.foldr_cons, List.map_cons, Nat.ofDigits_cons, ih]
      ring
  unfold base16Value
  rw [← key cs.reverse, List.foldr_reverse]

theorem base16Value_example : base16Value "0fA3".data = 4003 := by
  decide!

/-- A non-empty list of hexadecimal digits parses to its base-16 value. -/
theorem SetString_hex (cs : List Char) (h : validHexChars cs = true) :
    SetString (String.mk cs) 16 = some ((base16Value cs : Nat) : Int) := by
  unfold validHexChars at h
  rw [Bool.and_eq_true] at h
  obtain ⟨hne, hall⟩ := h
  cases cs with
  | nil => simp at hne
  | cons ch t =>
    have hch : isHexDigit ch = true := by
      rw [List.all_cons, Bool.and_eq_true] at hall
      exact hall.1
    have h1 : ch ≠ '-' := by
      intro hc
      rw [hc] at hch
      exact absurd hch (by decide)
    have h2 : ch ≠ '+' := by
      intro hc
      rw [hc] at hch
      exact absurd hch (by decide)
    unfold SetString
    simp only [if_neg h1, if_neg h2]
    unfold scanDigits
    simp only
    rw [foldlM_scanStep_hex (ch :: t) 0 hall, foldl_hex_eq_base16Value]
    rfl

theorem validHexChars_map (f : Char → Char) (cs : List Char)
    (hf : ∀ c, isHexDigit c = true → isHexDigit (f c) = true)
    (h : validHexChars cs = true) : validHexChars (cs.map f) = true := by
  unfold validHexChars at h ⊢
  rw [Bool.and_eq_true] at h ⊢
  obtain ⟨hne, hall⟩ := h
  constructor
  · cases cs with
    | nil => simp at hne
    | cons c t => rfl
  · rw [List.all_eq_true] at hall ⊢
    intro x hx
    obtain ⟨c, hc, rfl⟩ := List.mem_map.mp hx
    exact hf c (hall c hc)

theorem base16Value_map (f : Char → Char) (cs : List Char)
    (hf : ∀ c, isHexDigit c = true → hexCharValue (f c) = hexCharValue c)
    (h : validHexChars cs = true) : base16Value (cs.map f) = base16Value cs := by
  unfold validHexChars at h
  rw [Bool.and_eq_true, List.all_eq_true] at h
  unfold base16Value
  rw [← List.map_reverse, List.map_map]
  congr 1
  apply List.map_congr_left
  intro c hc
  exact hf c (h.2 c (List.mem_reverse.mp hc))

theorem validHexChars_leading_zeros (k : Nat) (cs : List Char)
    (h : validHexChars cs = true) : validHexChars (List.replicate k '0' ++ cs) = true := by
  unfold validHexChars at h ⊢
  rw [Bool.and_eq_true] at h ⊢
  obtain ⟨hne, hall⟩ := h
  constructor
  · cases cs with
    | nil => simp at hne
    | cons c t => simp
  · rw [List.all_append, hall, Bool.and_true, List.all_eq_true]
    intro x hx
    rw [List.eq_of_mem_replicate hx]
    decide

theorem base16Value_leading_zeros (k : Nat) (cs : List Char) :
    base16Value (List.replicate k '0' ++ cs) = base16Value cs := by
  have hz : ∀ n : Nat,
      (List.replicate n '0').foldl (fun acc c => acc * 16 + hexCharValue c) 0 = 0 := by
    intro n
    induction n with
    | zero => rfl
    | succ n ih =>
      rw [List.replicate_succ, List.foldl_cons]
      have h0 : 0 * 16 + hexCharValue '0' = 0 := by decide
      rw [h0, ih]
  rw [← foldl_hex_eq_base16Value, ← foldl_hex_eq_base16Value, List.foldl_append, hz]

/-- C11. The parse is exact and insensitive to presentation: for every
non-empty string `h` of hexadecimal digits, of any length, `SetString(h, 16)`
succeeds with the base-16 value of `h`, an unbounded integer, and the result
is the same for `h` in upper case, for `h` in lower case, and for `h` with `k`
characters `0` in front. -/
theorem parse_exact_and_presentation_free (h : String) (hv : validHex h = true) (k : Nat) :
    SetString h 16 = some ((base16Value h.data : Nat) : Int) ∧
      SetString h.toUpper 16 = SetString h 16 ∧
      SetString h.toLower 16 = SetString h 16 ∧
      SetString (String.mk (List.replicate k '0' ++ h.data)) 16 = SetString h 16 := by
  have hbase : SetString h 16 = some ((base16Value h.data : Nat) : Int) :=
    SetString_hex h.data hv
  refine ⟨hbase, ?_, ?_, ?_⟩
  · rw [hbase, String.toUpper, String.map_eq,
      SetString_hex _ (validHexChars_map _ _ (fun c hc => (hex_case_insensitive c hc).1) hv),
      base16Value_map _ _ (fun c hc => (hex_case_insensitive c hc).2.1) hv]
  · rw [hbase, String.toLower, String.map_eq,
      SetString_hex _ (validHexChars_map _ _ (fun c hc => (hex_case_insensitive c hc).2.2.1) hv),
      base16Value_map _ _ (fun c hc => (hex_case_insensitive c hc).2.2.2) hv]
  · rw [hbase, SetString_hex _ (validHexChars_leading_zeros k _ hv),
      base16Value_leading_zeros]

theorem parse_exact_and_presentation_free_witness :
    validHex "0fA3" = true ∧
      SetString "0fA3" 16 = some ((base16Value "0fA3".data : Nat) : Int) ∧
      SetString "0fA3".toUpper 16 = SetString "0fA3" 16 ∧
      SetString "0fA3".toLower 16 = SetString "0fA3" 16 ∧
      SetString (String.mk (List.replicate 3 '0' ++ "0fA3".data)) 16 = SetString "0fA3" 16 :=
  ⟨by decide, parse_exact_and_presentation_free "0fA3" (by decide) 3⟩

end Zkintel
